import Mathlib

/-!
Verification of the serverlessAPI core: a shallow embedding of the
command dispatcher (PluginManager.executeCommand), the result
classifier (createResponseObject), the plugin registration loop of
init(), restart(), the HTTP executeCommand handler, the dependency
sorter (topologicalSort), the delayed-response lifecycle
(ResponseMixin, SlowResponse, ObservableResponse) and the CMB external
polling loop (CMBResponseMixin).
-/

namespace ServerlessAPI

/-- The four delayed-response classes. -/
inductive Flavor where
  | slow
  | observable
  | cmbSlow
  | cmbObservable
deriving DecidableEq

/-- JavaScript values as consumed and produced by the dispatcher.
`response f cid` is an instance of one of the four delayed-response
classes carrying its callId; `obj c fs` is any other object, tagged
with its constructor name `c` and its fields. -/
inductive JSVal where
  | undefined
  | jsnull
  | bool (b : Bool)
  | num (n : Int)
  | str (s : String)
  | arr (elems : List JSVal)
  | response (f : Flavor) (callId : String)
  | obj (ctorName : String) (fields : List (String × JSVal))

/-- JavaScript truthiness. -/
def truthy : JSVal → Bool
  | .undefined => false
  | .jsnull => false
  | .bool b => b
  | .num n => n != 0
  | .str s => s != ""
  | .arr _ => true
  | .response _ _ => true
  | .obj _ _ => true

/-- Property access `v.k` as used on `options` (guarded by truthiness
in the source, so the null/undefined throw cases never arise there);
on non-objects it yields undefined. -/
def getField : JSVal → String → JSVal
  | .obj _ fs, k => match fs.lookup k with
    | some v => v
    | none => .undefined
  | _, _ => .undefined

/-- The guard `!v || typeof v !== 'string'` of executeCommand, in its
passing direction: `some s` iff `v` is a non-empty string. -/
def checkNonEmptyString (v : JSVal) : Option String :=
  match v with
  | .str s => if s = "" then none else some s
  | _ => none

/-- The guard `Array.isArray(v)` in its passing direction. -/
def checkArray : JSVal → Option (List JSVal)
  | .arr l => some l
  | _ => none

/-- Errors thrown by executeCommand and createResponseObject,
structured by their throw site in lib/PluginManager.js. -/
inductive ExecError where
  | invalidName
  | invalidPluginName
  | invalidArgs
  | noPlugin (pluginName : String)
  | noAllow (pluginName : String)
  | unauthorized (forWhom : JSVal) (name : String)
  | noMethod (pluginName : String) (name : String)
  | typeErrorNullConstructor
  | typeErrorGetCallId

/-- The classified result `{operationType, result}`. -/
structure CommandResult where
  operationType : String
  result : JSVal

/-- A registered plugin instance: whether `typeof plugin.allow ===
'function'`, the allow predicate `(forWhom, email, name, ...args)`,
and the callable methods. -/
structure Plugin where
  hasAllow : Bool
  allow : JSVal → JSVal → String → List JSVal → JSVal
  methods : String → Option (List JSVal → JSVal)

/-- PluginManager state: the `plugins` registry and the `isRestarting`
flag. -/
structure PMState where
  plugins : List (String × Plugin)
  isRestarting : Bool

/-- An incoming command object; absent fields are `undefined`. -/
structure Command where
  forWhom : JSVal
  name : JSVal
  pluginName : JSVal
  args : JSVal
  options : JSVal

/-- operationType tag per response class, as emitted by
createResponseObject. -/
def flavorTag : Flavor → String
  | .slow => "slowLambda"
  | .observable => "observableLambda"
  | .cmbSlow => "cmbSlowLambda"
  | .cmbObservable => "cmbObservableLambda"

/-- Constructor names switched on by createResponseObject. -/
def responseCtorNames : List String :=
  ["SlowResponse", "ObservableResponse", "CMBSlowResponse", "CMBObservableResponse"]

/-- createResponseObject of lib/PluginManager.js: `undefined` is sync;
otherwise the code reads `result.constructor.name` (throwing a
TypeError on `null`) and switches on it; the four response classes
yield their tag with `result.getCallId()`; a plain object whose
constructor name collides with one of the four would also enter that
branch, where `getCallId` is not a function; everything else is sync
as-is. -/
def createResponseObject : JSVal → Except ExecError CommandResult
  | .undefined => .ok ⟨"sync", .undefined⟩
  | .jsnull => .error .typeErrorNullConstructor
  | .response f cid => .ok ⟨flavorTag f, .str cid⟩
  | .obj c fs =>
      if c ∈ responseCtorNames then .error .typeErrorGetCallId
      else .ok ⟨"sync", .obj c fs⟩
  | v => .ok ⟨"sync", v⟩

/-- What executeCommand did: the outcome, the value allow returned when
it was consulted, and whether the plugin method was invoked. -/
structure ExecOutcome where
  outcome : Except ExecError CommandResult
  allowConsulted : Option JSVal
  methodInvoked : Bool

/-- The email the dispatcher extracts:
`if (options && options.email) email = options.email`. -/
def extractEmail (options : JSVal) : JSVal :=
  if truthy options && truthy (getField options "email") then getField options "email"
  else .undefined

/-- executeCommand of lib/PluginManager.js: restart short-circuit;
structural validation of `name`, `pluginName` and `args` (the source
destructures `forWhom` but has no guard for it); plugin lookup; allow
check; `plugin.allow(forWhom, email, name, ...args)` with strict-false
rejection; method lookup; invocation; classification. -/
def executeCommand (st : PMState) (command : Command) : ExecOutcome :=
  if st.isRestarting then ⟨.ok ⟨"restart", .undefined⟩, none, false⟩
  else
    match checkNonEmptyString command.name with
    | none => ⟨.error .invalidName, none, false⟩
    | some nm =>
      match checkNonEmptyString command.pluginName with
      | none => ⟨.error .invalidPluginName, none, false⟩
      | some pname =>
        match checkArray command.args with
        | none => ⟨.error .invalidArgs, none, false⟩
        | some argList =>
          match st.plugins.lookup pname with
          | none => ⟨.error (.noPlugin pname), none, false⟩
          | some plugin =>
            if !plugin.hasAllow then ⟨.error (.noAllow pname), none, false⟩
            else
              let canExecute := plugin.allow command.forWhom (extractEmail command.options) nm argList
              match canExecute with
              | .bool false =>
                  ⟨.error (.unauthorized command.forWhom nm), some canExecute, false⟩
              | _ =>
                match plugin.methods nm with
                | none => ⟨.error (.noMethod pname nm), some canExecute, false⟩
                | some mFn => ⟨createResponseObject (mFn argList), some canExecute, true⟩

/-- Whether an outcome is one of the dispatcher's structural
validation errors. -/
def isValidationError (r : ExecOutcome) : Bool :=
  match r.outcome with
  | .error .invalidName => true
  | .error .invalidPluginName => true
  | .error .invalidArgs => true
  | _ => false

/-- Body of the HTTP executeCommand response envelope. -/
inductive HttpResult where
  | empty
  | invalidBody
  | errorBody (e : ExecError)
  | value (v : JSVal)

/-- The HTTP envelope built by the PUT executeCommand handler in
index.js. -/
structure HttpResp where
  statusCode : Nat
  operationTypeField : Option String
  resultField : HttpResult

/-- The PUT executeCommand handler of index.js: an unparsable body
(`JSON.parse` throws, modeled as `none`) yields 400 "Invalid body";
otherwise the dispatcher runs and a thrown error of any kind yields
500 with the error, a returned classification yields 200. -/
def executeCommandHandler (st : PMState) (body : Option Command) : HttpResp :=
  match body with
  | none => ⟨400, none, .invalidBody⟩
  | some cmd =>
    match (executeCommand st cmd).outcome with
    | .ok r => ⟨200, some r.operationType, .value r.result⟩
    | .error e => ⟨500, none, .errorBody e⟩

/-- registerPlugin of lib/PluginManager.js, duplicate check included:
registering a name that is already present throws; otherwise the
plugin is appended to the registry (module loading and shape checks
are performed by the caller-supplied module map here). -/
def registerPlugin (plugins : List (String × Plugin)) (pname : String) (inst : Plugin) :
    Except String (List (String × Plugin)) :=
  if (plugins.lookup pname).isSome then
    .error ("Plugin " ++ pname ++ " already registered")
  else
    .ok (plugins ++ [(pname, inst)])

/-- The registration loop at the end of init(): for each sorted name,
a missing plugin file is logged, and any error thrown by
registerPlugin (duplicate registration included) is caught, logged and
the loop continues with the remaining plugins. Returns the final
registry together with the logged error lines. -/
def initRegisterLoop (mods : List (String × Plugin)) :
    List String → List (String × Plugin) → List String →
    (List (String × Plugin)) × List String
  | [], plugins, errs => (plugins, errs)
  | pname :: rest, plugins, errs =>
    match mods.lookup pname with
    | none =>
        initRegisterLoop mods rest plugins (errs ++ ["Plugin file not found for " ++ pname])
    | some inst =>
      match registerPlugin plugins pname inst with
      | .ok plugins2 => initRegisterLoop mods rest plugins2 errs
      | .error e =>
          initRegisterLoop mods rest plugins
            (errs ++ ["Error registering plugin " ++ pname ++ ": " ++ e])

/-- restart(envVars) of lib/PluginManager.js: sets the restarting
flag, shuts plugins down, clears the registry, then awaits init();
only after init() returns normally is the flag cleared — there is no
try/finally, so a throwing init() leaves the flag set. The outcome of
init() (which depends on the plugin directory) is passed in. -/
def restart (st : PMState) (initRes : Except String (List (String × Plugin))) : PMState :=
  let cleared : PMState := { plugins := [], isRestarting := true }
  match initRes with
  | .error _ => cleared
  | .ok ps => { plugins := ps, isRestarting := false }

/-! ## Delayed-response lifecycle (ResponseMixin + SlowResponse /
ObservableResponse) -/

/-- A cleanup callback registered on the mixin: either a
caller-supplied one (identified by a number) or the guard callback
SlowResponse installs at construction. -/
inductive CbTag where
  | user (id : Nat)
  | slowGuard
deriving DecidableEq

/-- Observable side effects of the lifecycle operations. -/
inductive Eff where
  | put (endpoint : String) (status : String)
  | errorCbFired (id : Nat) (code : String) (callId : String)
  | cleanupCbFired (id : Nat)
  | resourceCbFired (id : Nat)
deriving DecidableEq

/-- Combined state of a SlowResponse: the closure flag of
SlowResponse.js, the mixin flag and timer of ResponseMixin.js, the
listener lists, and whether the process-wide
ResponseCleanupRegistry still holds this callId's entry. -/
structure SlowState where
  callId : String
  slowCompleted : Bool
  mixinCompleted : Bool
  timerActive : Bool
  errorCbs : List Nat
  cleanupCbs : List CbTag
  resourceCbs : List Nat
  inRegistry : Bool

/-- State right after `new SlowResponse()`: init() started the timer
and registered the registry entry, and the constructor registered its
expiry guard cleanup callback. -/
def SlowResponse.initial (cid : String) : SlowState :=
  { callId := cid, slowCompleted := false, mixinCompleted := false,
    timerActive := true, errorCbs := [], cleanupCbs := [.slowGuard],
    resourceCbs := [], inRegistry := true }

/-- Operations invokable on a SlowResponse; the network outcome of the
webhook PUT is an input of `progress`/`endCall`, and `timerFire` is
the expiry timer going off. -/
inductive SlowEvent where
  | progress (netOk : Bool)
  | endCall (netOk : Bool)
  | timerFire
  | onError (id : Nat)
  | addCleanupCallback (id : Nat)
  | addResourceCleanupCallback (id : Nat)

/-- `_cleanup()` of SlowResponse.js: run the resource-cleanup
callbacks in order and clear the list. -/
def slowResourceCleanup (s : SlowState) : SlowState × List Eff :=
  ({ s with resourceCbs := [] }, s.resourceCbs.map (.resourceCbFired ·))

/-- Running the mixin's cleanup callbacks in order during expiry: a
user callback fires; SlowResponse's guard, when its closure flag is
still unset, sets it and runs `_cleanup()`. -/
def runCleanupCbs : SlowState → List CbTag → SlowState × List Eff
  | s, [] => (s, [])
  | s, .user id :: rest =>
      let (s', effs) := runCleanupCbs s rest
      (s', .cleanupCbFired id :: effs)
  | s, .slowGuard :: rest =>
      if s.slowCompleted then runCleanupCbs s rest
      else
        let (s1, effs1) := slowResourceCleanup { s with slowCompleted := true }
        let (s2, effs2) := runCleanupCbs s1 rest
        (s2, effs1 ++ effs2)

/-- `_handleExpiry()` of ResponseMixin.js: a completed response
ignores it; otherwise mark completed, clear the timer, fire every
error callback with the EXPIRED error carrying the callId, then run
the cleanup callbacks, then clear both lists. The registry entry is
not touched here. -/
def handleExpiry (s : SlowState) : SlowState × List Eff :=
  if s.mixinCompleted then (s, [])
  else
    let s1 := { s with mixinCompleted := true, timerActive := false }
    let errEffs := s1.errorCbs.map (fun id => Eff.errorCbFired id "EXPIRED" s1.callId)
    let (s2, cleanEffs) := runCleanupCbs s1 s1.cleanupCbs
    ({ s2 with cleanupCbs := [], errorCbs := [] }, errEffs ++ cleanEffs)

/-- `_handleError(error)` of SlowResponse.js, for errors raised by the
webhook PUT (which carry no code, hence UNKNOWN_ERROR): when the
closure flag is unset, set both flags, stop the timer, fire the error
callbacks, run the resource cleanup and drop the registry entry. -/
def slowHandleError (s : SlowState) : SlowState × List Eff :=
  if s.slowCompleted then (s, [])
  else
    let s1 := { s with slowCompleted := true, mixinCompleted := true, timerActive := false }
    let errEffs := s1.errorCbs.map (fun id => Eff.errorCbFired id "UNKNOWN_ERROR" s1.callId)
    let (s2, resEffs) := slowResourceCleanup s1
    ({ s2 with inRegistry := false }, errEffs ++ resEffs)

/-- One step of a SlowResponse (SlowResponse.js over ResponseMixin.js).
`progress`: no-op when the closure flag is set; otherwise the timer is
reset (the mixin skips the reset once its flag is set), the PUT to
/progress is emitted, and a network failure takes the error path.
`endCall`: no-op when the closure flag is set; otherwise both flags
are set before the PUT to /result, so on network failure the error
path finds the response already completed and does nothing further; on
success the resource cleanup runs and the registry entry is removed.
`timerFire`: the timeout callback, which defers to `_handleExpiry`. -/
def stepSlow (s : SlowState) : SlowEvent → SlowState × List Eff
  | .progress netOk =>
    if s.slowCompleted then (s, [])
    else
      let sReset := if s.mixinCompleted then s else { s with timerActive := true }
      let putEff := Eff.put "/progress" "pending"
      if netOk then (sReset, [putEff])
      else
        let (s', effs) := slowHandleError sReset
        (s', putEff :: effs)
  | .endCall netOk =>
    if s.slowCompleted then (s, [])
    else
      let s1 := { s with slowCompleted := true, mixinCompleted := true, timerActive := false }
      let putEff := Eff.put "/result" "completed"
      if netOk then
        let (s2, resEffs) := slowResourceCleanup s1
        ({ s2 with inRegistry := false }, putEff :: resEffs)
      else
        let (s2, effs) := slowHandleError s1
        (s2, putEff :: effs)
  | .timerFire =>
    if !s.timerActive then (s, [])
    else if s.mixinCompleted then ({ s with timerActive := false }, [])
    else handleExpiry s
  | .onError id => ({ s with errorCbs := s.errorCbs ++ [id] }, [])
  | .addCleanupCallback id => ({ s with cleanupCbs := s.cleanupCbs ++ [.user id] }, [])
  | .addResourceCleanupCallback id => ({ s with resourceCbs := s.resourceCbs ++ [id] }, [])

/-- Run a SlowResponse through a sequence of events, collecting the
per-step effect lists. -/
def runSlow (s : SlowState) : List SlowEvent → SlowState × List (List Eff)
  | [] => (s, [])
  | e :: rest =>
    let (s', effs) := stepSlow s e
    let (s'', trace) := runSlow s' rest
    (s'', effs :: trace)

/-- State of an ObservableResponse (ObservableResponse.js over
ResponseMixin.js): only the mixin state — the class installs no
completion flag, no guard callback and no resource-cleanup list. -/
structure ObsState where
  callId : String
  mixinCompleted : Bool
  timerActive : Bool
  errorCbs : List Nat
  cleanupCbs : List Nat
  inRegistry : Bool

/-- State right after `new ObservableResponse()`. -/
def ObservableResponse.initial (cid : String) : ObsState :=
  { callId := cid, mixinCompleted := false, timerActive := true,
    errorCbs := [], cleanupCbs := [], inRegistry := true }

/-- Operations invokable on an ObservableResponse. A failing webhook
PUT makes `progress`/`endCall` throw to the plugin caller without any
lifecycle transition, so the network outcome does not change the
machine. -/
inductive ObsEvent where
  | progress
  | endCall
  | timerFire
  | onError (id : Nat)
  | addCleanupCallback (id : Nat)

/-- One step of an ObservableResponse: `progress` and `endCall` send
their PUT unconditionally — there is no completed guard, no flag
update, no cleanup and no registry removal in ObservableResponse.js —
and reset the timer only while the mixin flag is unset; expiry is the
shared `_handleExpiry`. -/
def stepObs (s : ObsState) : ObsEvent → ObsState × List Eff
  | .progress =>
    let sReset := if s.mixinCompleted then s else { s with timerActive := true }
    (sReset, [Eff.put "/progress" "pending"])
  | .endCall =>
    let sReset := if s.mixinCompleted then s else { s with timerActive := true }
    (sReset, [Eff.put "/result" "completed"])
  | .timerFire =>
    if !s.timerActive then (s, [])
    else if s.mixinCompleted then ({ s with timerActive := false }, [])
    else
      ({ s with mixinCompleted := true, timerActive := false,
                errorCbs := [], cleanupCbs := [] },
        s.errorCbs.map (fun id => Eff.errorCbFired id "EXPIRED" s.callId)
          ++ s.cleanupCbs.map (.cleanupCbFired ·))
  | .onError id => ({ s with errorCbs := s.errorCbs ++ [id] }, [])
  | .addCleanupCallback id => ({ s with cleanupCbs := s.cleanupCbs ++ [id] }, [])

/-! ## CMB external webhook polling (CMBResponseMixin.js) -/

/-- State of the 1 Hz polling loop a CMB response starts at
construction. -/
structure CMBPollState where
  pollingActive : Bool
  hasExternalCb : Bool
  ownerCompleted : Bool
deriving DecidableEq

/-- Effects of the polling loop. -/
inductive PollEff where
  | fetchExternal
  | externalCbFired
  | threwNoCb
deriving DecidableEq

/-- Inputs to the polling loop: an interval tick carrying the outcome
of fetching the external webhook URL, registration of the
caller-supplied callback, and terminal completion (end, expiry or
error) of the owning response. -/
inductive PollEvent where
  | tick (respOk : Bool) (status : String)
  | registerExternalCb
  | ownerTerminal

/-- One step of CMBResponseMixin.js's polling machine: a tick while
the interval is cleared does nothing; an active tick fetches the
external URL and, when the body's status is "completed", clears the
interval and then invokes the registered callback (a TypeError when
none was registered). Nothing in the source connects the owning
response's completion to the interval, so `ownerTerminal` leaves the
polling state untouched. -/
def stepPoll (s : CMBPollState) : PollEvent → CMBPollState × List PollEff
  | .tick respOk status =>
    if !s.pollingActive then (s, [])
    else if respOk && status == "completed" then
      if s.hasExternalCb then
        ({ s with pollingActive := false }, [.fetchExternal, .externalCbFired])
      else
        ({ s with pollingActive := false }, [.fetchExternal, .threwNoCb])
    else (s, [.fetchExternal])
  | .registerExternalCb => ({ s with hasExternalCb := true }, [])
  | .ownerTerminal => ({ s with ownerCompleted := true }, [])

/-- Polling state right after construction of a CMB response. -/
def CMBResponse.initialPoll : CMBPollState :=
  { pollingActive := true, hasExternalCb := false, ownerCompleted := false }

/-! ## Dependency sorter (topologicalSort of lib/PluginManager.js) -/

/-- The dependency graph built by buildDependencyGraph: the insertion-
ordered keys with, for each, the list of declared dependency names
(which may name unknown plugins). -/
abbrev Graph := List (String × List String)

/-- `graph[node]` as read by the sorter: the dependency list of a key,
`[]` (undefined, skipped by the Array.isArray guard) otherwise. -/
def depsOf (g : Graph) (n : String) : List String :=
  match g.lookup n with
  | some ds => ds
  | none => []

/-- `Object.keys(graph)`. -/
def keysOf (g : Graph) : List String := g.map Prod.fst

/-- Whether a name is a key of the graph. -/
def isKey (g : Graph) (n : String) : Bool := (g.lookup n).isSome

/-- The sorter's mutable state: the `visited` map (as the set of names
marked true), the `temp` map (as the current recursion stack, most
recent first), and the output order. -/
structure DfsSt where
  visited : List String
  stack : List String
  order : List String

/-- The cycle error message thrown by the sorter. -/
def cycMsg (n : String) : String :=
  "Circular dependency detected involving plugin " ++ n

/-- Sentinel for exhausted recursion depth; an artifact of the
embedding, proved unreachable for the depth bound topologicalSort
passes. -/
def fuelMsg : String := "fuel exhausted"

mutual

/-- `visit(node)` of topologicalSort: an in-progress node is a cycle
error; a visited node is skipped; otherwise the node is pushed on the
temp stack, its dependencies are visited in order, and the node is
unmarked, marked visited and appended to the order. -/
def visit (g : Graph) : Nat → String → DfsSt → Except String DfsSt
  | 0, _, _ => .error fuelMsg
  | fuel + 1, node, st =>
    if node ∈ st.stack then .error (cycMsg node)
    else if node ∈ st.visited then .ok st
    else
      match visitList g fuel (depsOf g node) { st with stack := node :: st.stack } with
      | .error e => .error e
      | .ok st2 =>
          .ok { visited := node :: st2.visited, stack := st2.stack.erase node,
                order := st2.order ++ [node] }

/-- The `graph[node].forEach(visit)` loop inside `visit`. -/
def visitList (g : Graph) : Nat → List String → DfsSt → Except String DfsSt
  | _, [], st => .ok st
  | fuel, d :: ds, st =>
    match visit g fuel d st with
    | .error e => .error e
    | .ok st' => visitList g fuel ds st'

end

/-- The `Object.keys(graph).forEach` driver loop of topologicalSort. -/
def sortLoop (g : Graph) (fuel : Nat) : List String → DfsSt → Except String DfsSt
  | [], st => .ok st
  | n :: ns, st =>
    if n ∈ st.visited then sortLoop g fuel ns st
    else
      match visit g fuel n st with
      | .error e => .error e
      | .ok st' => sortLoop g fuel ns st'

/-- topologicalSort of lib/PluginManager.js over the built dependency
graph, with a recursion-depth budget that the stack-depth invariant
proves sufficient. -/
def topologicalSort (g : Graph) : Except String (List String) :=
  match sortLoop g (keysOf g).length.succ (keysOf g) ⟨[], [], []⟩ with
  | .error e => .error e
  | .ok st => .ok st.order

/-- A nonempty dependency path: `EdgePath g a b` holds when one can
walk from `a` to `b` along declared dependency edges (`b` transitively
a dependency of `a`). -/
inductive EdgePath (g : Graph) : String → String → Prop where
  | single {a b : String} : b ∈ depsOf g a → EdgePath g a b
  | cons {a b c : String} : b ∈ depsOf g a → EdgePath g b c → EdgePath g a c

/-- The input edges contain a cycle: some node reaches itself through
at least one edge (a self-loop or a larger strongly-connected
component). -/
def hasCycle (g : Graph) : Prop := ∃ n, EdgePath g n n

/-- `order` lists every node after all of its dependencies: whatever
decomposition exhibits an occurrence of `n`, each dependency of `n`
already occurs in the part before it. -/
def topoOrdered (g : Graph) (order : List String) : Prop :=
  ∀ pre n suf, order = pre ++ n :: suf → ∀ d ∈ depsOf g n, d ∈ pre

/-- The registration order of init(): the sorted names restricted to
those whose plugin file exists (unresolved dependency names also
appear in the sorter's output but are skipped with a logged error). -/
def initRegistrationOrder (g : Graph) (order : List String) : List String :=
  order.filter (isKey g)

/-- The consecutive-elements relation of the sorter's temp stack: each
entry is a declared dependency of the one below it. -/
def Chain (g : Graph) : List String → Prop
  | [] => True
  | [_] => True
  | a :: b :: rest => a ∈ depsOf g b ∧ Chain g (b :: rest)

/-- The sorter-state invariant: the output has no duplicates, the
visited set is exactly the set of emitted names, and the output lists
every name after its dependencies. -/
def GoodSt (g : Graph) (st : DfsSt) : Prop :=
  st.order.Nodup ∧ (∀ x, x ∈ st.visited ↔ x ∈ st.order) ∧ topoOrdered g st.order

/-! ## Derived predicates used by the statements -/

/-- A value that is neither undefined, nor null, nor an instance of a
response class, nor an object whose constructor name collides with
one: createResponseObject passes these through as synchronous. -/
def plainValue : JSVal → Bool
  | .undefined => false
  | .jsnull => false
  | .response _ _ => false
  | .obj c _ => if c ∈ responseCtorNames then false else true
  | _ => true

/-- Effects that invoke a registered listener (error, cleanup or
resource-cleanup callback), as opposed to a webhook PUT. -/
def isCbEff : Eff → Bool
  | .errorCbFired _ _ _ => true
  | .cleanupCbFired _ => true
  | .resourceCbFired _ => true
  | .put _ _ => false

/-- A SlowResponse that has fully completed: both completion flags set
and the expiry timer stopped. -/
def completedSlow (s : SlowState) : Bool :=
  s.slowCompleted && s.mixinCompleted && !s.timerActive

/-- Invariant of every SlowResponse state reachable from construction:
the two completion flags agree, a completed response has no pending
timer, and while uncompleted the constructor's guard callback is still
registered. -/
def slowInv (s : SlowState) : Prop :=
  (s.slowCompleted = true → s.mixinCompleted = true) ∧
  (s.mixinCompleted = true → s.slowCompleted = true) ∧
  (s.mixinCompleted = true → s.timerActive = false) ∧
  (s.mixinCompleted = false → CbTag.slowGuard ∈ s.cleanupCbs)

/-! ## Concrete fixtures -/

/-- A plugin that allows everything and exposes one method. -/
def pluginW : Plugin :=
  { hasAllow := true,
    allow := fun _ _ _ _ => .bool true,
    methods := fun n => if n = "hello" then some (fun _ => .str "hi") else none }

/-- A registry holding `pluginW` under "alpha". -/
def stW : PMState := { plugins := [("alpha", pluginW)], isRestarting := false }

/-- A well-formed command invoking pluginW.hello. -/
def cmdW : Command :=
  { forWhom := .str "alice", name := .str "hello", pluginName := .str "alpha",
    args := .arr [], options := .undefined }

/-- A command whose `forWhom` field is absent; every other field is
valid. -/
def cmdForWhomMissing : Command :=
  { forWhom := .undefined, name := .str "hello", pluginName := .str "alpha",
    args := .arr [], options := .undefined }

/-- A command whose `name` field is absent. -/
def cmdBadName : Command :=
  { forWhom := .str "u", name := .undefined, pluginName := .str "alpha",
    args := .arr [], options := .undefined }

/-- A plugin whose method returns null. -/
def pluginNull : Plugin :=
  { hasAllow := true,
    allow := fun _ _ _ _ => .bool true,
    methods := fun n => if n = "giveNull" then some (fun _ => .jsnull) else none }

/-- A registry holding `pluginNull` under "np". -/
def stNull : PMState := { plugins := [("np", pluginNull)], isRestarting := false }

/-- A command invoking pluginNull.giveNull. -/
def cmdNull : Command :=
  { forWhom := .str "u", name := .str "giveNull", pluginName := .str "np",
    args := .arr [], options := .undefined }

/-- A two-node dependency cycle. -/
def gCyc : Graph := [("x", ["y"]), ("y", ["x"])]

/-- An acyclic two-node graph: "b" depends on "a". -/
def gAcyc : Graph := [("a", ([] : List String)), ("b", ["a"])]

/-- A freshly created SlowResponse with one registered error
listener. -/
def slowFixture : SlowState :=
  { SlowResponse.initial "call-1" with errorCbs := [7] }

/-- A SlowResponse that has already completed. -/
def slowDone : SlowState :=
  { SlowResponse.initial "c" with
    slowCompleted := true
    mixinCompleted := true
    timerActive := false }

/-! ## Helper lemmas -/

theorem createResponseObject_not_validation (v : JSVal) (a : Option JSVal) (m : Bool) :
    isValidationError ⟨createResponseObject v, a, m⟩ = false := by
  cases v with
  | obj c fs =>
    simp only [createResponseObject]
    split <;> rfl
  | _ => rfl

theorem isValidationError_of_reached (st : PMState) (c : Command)
    (nm pname : String) (argList : List JSVal) (plugin : Plugin)
    (hrest : st.isRestarting = false)
    (hn : checkNonEmptyString c.name = some nm)
    (hp : checkNonEmptyString c.pluginName = some pname)
    (ha : checkArray c.args = some argList)
    (hlook : st.plugins.lookup pname = some plugin) :
    isValidationError (executeCommand st c) = false := by
  simp only [executeCommand, hrest, hn, hp, ha, hlook, Bool.false_eq_true, if_false]
  by_cases hal : plugin.hasAllow
  · simp only [hal, Bool.not_true, Bool.false_eq_true, if_false]
    split
    · rfl
    · split
      · rfl
      · exact createResponseObject_not_validation _ _ _
  · simp only [Bool.not_eq_true] at hal
    simp only [hal, Bool.not_false, if_true]
    rfl

/-! ## Claim theorems -/

/-- C1: for every command accepted by executeCommand, the target
plugin's allow predicate is invoked as allow(forWhom, options.email,
name, ...args) before the operation runs: a strict-false return makes
the command fail with the authorization error and the plugin method is
never invoked; any other return value permits the invocation. -/
theorem executeCommand_allow_gate (st : PMState) (c : Command) (plugin : Plugin)
    (nm pname : String) (argList : List JSVal)
    (hrest : st.isRestarting = false)
    (hn : checkNonEmptyString c.name = some nm)
    (hp : checkNonEmptyString c.pluginName = some pname)
    (ha : checkArray c.args = some argList)
    (hlook : st.plugins.lookup pname = some plugin)
    (hallow : plugin.hasAllow = true) :
    (executeCommand st c).allowConsulted =
        some (plugin.allow c.forWhom (extractEmail c.options) nm argList) ∧
    (plugin.allow c.forWhom (extractEmail c.options) nm argList = .bool false →
        (executeCommand st c).methodInvoked = false ∧
        (executeCommand st c).outcome = .error (.unauthorized c.forWhom nm)) ∧
    (plugin.allow c.forWhom (extractEmail c.options) nm argList ≠ .bool false →
        ∀ mFn, plugin.methods nm = some mFn →
          (executeCommand st c).methodInvoked = true ∧
          (executeCommand st c).outcome = createResponseObject (mFn argList)) := by
  simp only [executeCommand, hrest, hn, hp, ha, hlook, hallow, Bool.not_true,
    Bool.false_eq_true, if_false]
  cases hv : plugin.allow c.forWhom (extractEmail c.options) nm argList
  case bool b =>
    cases b
    case false =>
      refine ⟨?_, fun _ => ⟨?_, ?_⟩, fun hne => absurd rfl hne⟩ <;> rfl
    case true =>
      cases hm0 : plugin.methods nm with
      | none =>
        refine ⟨rfl,
          fun hcontra => absurd hcontra
            (fun h => JSVal.noConfusion h (fun hb => Bool.noConfusion hb)),
          fun _ mFn hm => ?_⟩
        cases hm
      | some mFn0 =>
        refine ⟨rfl,
          fun hcontra => absurd hcontra
            (fun h => JSVal.noConfusion h (fun hb => Bool.noConfusion hb)),
          fun _ mFn hm => ?_⟩
        cases hm
        exact ⟨rfl, rfl⟩
  all_goals
    cases hm0 : plugin.methods nm with
    | none =>
      refine ⟨rfl,
        fun hcontra => absurd hcontra (fun h => JSVal.noConfusion h),
        fun _ mFn hm => ?_⟩
      cases hm
    | some mFn0 =>
      refine ⟨rfl,
        fun hcontra => absurd hcontra (fun h => JSVal.noConfusion h),
        fun _ mFn hm => ?_⟩
      cases hm
      exact ⟨rfl, rfl⟩

/-- Witness for C1 at a concrete permitting plugin. -/
theorem executeCommand_allow_gate_witness :
    (executeCommand stW cmdW).methodInvoked = true ∧
    (executeCommand stW cmdW).outcome = .ok ⟨"sync", .str "hi"⟩ := by
  have h := executeCommand_allow_gate stW cmdW pluginW "hello" "alpha" []
    rfl rfl rfl rfl rfl rfl
  have h3 := h.2.2 (by simp [pluginW]) (fun _ => .str "hi") rfl
  exact ⟨h3.1, by rw [h3.2]; rfl⟩

/-- C4 counterexample: a command whose `forWhom` field is absent (a
violation of the claimed validation) is not rejected — it passes
validation, the plugin is consulted and its method runs. -/
theorem executeCommand_forWhom_not_validated :
    (executeCommand stW cmdForWhomMissing).methodInvoked = true ∧
    isValidationError (executeCommand stW cmdForWhomMissing) = false ∧
    (executeCommand stW cmdForWhomMissing).outcome = .ok ⟨"sync", .str "hi"⟩ :=
  ⟨rfl, rfl, rfl⟩

/-- C4 amended: executeCommand validates `name`, `pluginName` (each a
non-empty string) and `args` (an array) before consulting any plugin,
and a violation of any of these fails with the corresponding
validation error without consulting a plugin; `forWhom`, however, is
not validated — the validation outcome is independent of it. -/
theorem executeCommand_validation_amended (st : PMState) (c : Command)
    (hrest : st.isRestarting = false) :
    (checkNonEmptyString c.name = none →
        executeCommand st c = ⟨.error .invalidName, none, false⟩) ∧
    (checkNonEmptyString c.pluginName = none →
        ∀ nm, checkNonEmptyString c.name = some nm →
        executeCommand st c = ⟨.error .invalidPluginName, none, false⟩) ∧
    (checkArray c.args = none →
        ∀ nm pname, checkNonEmptyString c.name = some nm →
        checkNonEmptyString c.pluginName = some pname →
        executeCommand st c = ⟨.error .invalidArgs, none, false⟩) ∧
    (∀ v, isValidationError (executeCommand st { c with forWhom := v }) =
        isValidationError (executeCommand st c)) := by
  refine ⟨?_, ?_, ?_, ?_⟩
  · intro h
    simp only [executeCommand, hrest, h, Bool.false_eq_true, if_false]
  · intro h nm hn
    simp only [executeCommand, hrest, h, hn, Bool.false_eq_true, if_false]
  · intro h nm pname hn hp
    simp only [executeCommand, hrest, h, hn, hp, Bool.false_eq_true, if_false]
  · intro v
    cases hn : checkNonEmptyString c.name with
    | none =>
      simp only [executeCommand, hrest, hn, Bool.false_eq_true, if_false]
    | some nm =>
      cases hp : checkNonEmptyString c.pluginName with
      | none =>
        simp only [executeCommand, hrest, hn, hp, Bool.false_eq_true, if_false]
      | some pname =>
        cases ha : checkArray c.args with
        | none =>
          simp only [executeCommand, hrest, hn, hp, ha, Bool.false_eq_true, if_false]
        | some argList =>
          cases hlook : st.plugins.lookup pname with
          | none =>
            simp only [executeCommand, hrest, hn, hp, ha, hlook,
              Bool.false_eq_true, if_false]
          | some plugin =>
            rw [isValidationError_of_reached st { c with forWhom := v }
                  nm pname argList plugin hrest hn hp ha hlook,
                isValidationError_of_reached st c nm pname argList plugin
                  hrest hn hp ha hlook]

/-- Witness for C4 amended at a concrete invalid command. -/
theorem executeCommand_validation_amended_witness :
    executeCommand stW cmdBadName = ⟨.error .invalidName, none, false⟩ :=
  (executeCommand_validation_amended stW cmdBadName rfl).1 rfl

/-- C5 counterexample: a body that parses but fails the dispatcher's
structural validation is answered with HTTP 500, not the claimed
400. -/
theorem handler_validation_error_500 :
    isValidationError (executeCommand stW cmdBadName) = true ∧
    (executeCommandHandler stW (some cmdBadName)).statusCode = 500 ∧
    (executeCommandHandler stW (some cmdBadName)).statusCode ≠ 400 :=
  ⟨rfl, rfl, by decide⟩

/-- C5 amended: only an unparsable body yields 400; a parsed body that
fails dispatcher validation — like every other dispatcher error — is
surfaced as 500, and a dispatcher success as 200. -/
theorem handler_status_amended (st : PMState) (cmd : Command) :
    (executeCommandHandler st none).statusCode = 400 ∧
    (isValidationError (executeCommand st cmd) = true →
        (executeCommandHandler st (some cmd)).statusCode = 500) ∧
    (∀ r, (executeCommand st cmd).outcome = .ok r →
        (executeCommandHandler st (some cmd)).statusCode = 200) ∧
    (∀ e, (executeCommand st cmd).outcome = .error e →
        (executeCommandHandler st (some cmd)).statusCode = 500) := by
  refine ⟨rfl, ?_, ?_, ?_⟩
  · intro hval
    cases hout : (executeCommand st cmd).outcome with
    | ok r => rw [isValidationError, hout] at hval; cases hval
    | error e => simp only [executeCommandHandler, hout]
  · intro r hout
    simp only [executeCommandHandler, hout]
  · intro e hout
    simp only [executeCommandHandler, hout]

/-- Witness for C5 amended at a concrete invalid command. -/
theorem handler_status_amended_witness :
    (executeCommandHandler stW (some cmdBadName)).statusCode = 500 :=
  (handler_status_amended stW cmdBadName).2.1 rfl

/-- C8 counterexample: a plugin method returning null does not yield
operationType "sync" with result null — createResponseObject reads
`null.constructor` and throws, which surfaces as a dispatcher
error. -/
theorem createResponseObject_null_throws :
    createResponseObject .jsnull = .error .typeErrorNullConstructor ∧
    (executeCommand stNull cmdNull).outcome = .error .typeErrorNullConstructor ∧
    (executeCommand stNull cmdNull).outcome ≠ .ok ⟨"sync", .jsnull⟩ :=
  ⟨rfl, rfl, fun h => by rw [show (executeCommand stNull cmdNull).outcome =
      .error .typeErrorNullConstructor from rfl] at h; cases h⟩

/-- C8 amended: undefined yields sync/undefined; each of the four
response classes yields its operationType with the callId as result;
any other value whose constructor name is not one of the four class
names yields sync with the value as-is; but null makes
createResponseObject throw a TypeError instead of any classification. -/
theorem classification_amended :
    createResponseObject .undefined = .ok ⟨"sync", .undefined⟩ ∧
    (∀ f cid, createResponseObject (.response f cid) = .ok ⟨flavorTag f, .str cid⟩) ∧
    (∀ v, plainValue v = true → createResponseObject v = .ok ⟨"sync", v⟩) ∧
    createResponseObject .jsnull = .error .typeErrorNullConstructor := by
  refine ⟨rfl, fun f cid => rfl, ?_, rfl⟩
  intro v hv
  cases v with
  | obj c fs =>
    simp only [plainValue] at hv
    simp only [createResponseObject]
    split
    · next hmem => rw [if_pos hmem] at hv; cases hv
    · rfl
  | undefined => cases hv
  | jsnull => cases hv
  | response f cid => cases hv
  | bool b => rfl
  | num n => rfl
  | str s => rfl
  | arr xs => rfl

/-- Witness for C8 amended at a concrete plain value. -/
theorem classification_amended_witness :
    createResponseObject (.str "x") = .ok ⟨"sync", .str "x"⟩ :=
  classification_amended.2.2.1 (.str "x") rfl

/-- C10: if init() inside restart() throws, the restarting flag is
never cleared and every subsequent executeCommand short-circuits to
operationType "restart" without validating or executing anything. -/
theorem restart_flag_stuck (st : PMState) (e : String) (c : Command) :
    (restart st (.error e)).isRestarting = true ∧
    executeCommand (restart st (.error e)) c =
      ⟨.ok ⟨"restart", .undefined⟩, none, false⟩ ∧
    (executeCommand (restart st (.error e)) c).methodInvoked = false ∧
    (executeCommand (restart st (.error e)) c).allowConsulted = none :=
  ⟨rfl, rfl, rfl, rfl⟩

/-- C6 counterexample: with "alpha" already registered, init()'s
registration loop logs the duplicate error and continues, registering
the remaining plugin "beta" and returning normally instead of
failing. -/
theorem init_swallows_duplicate :
    registerPlugin [("alpha", pluginW)] "alpha" pluginW =
      .error "Plugin alpha already registered" ∧
    initRegisterLoop [("alpha", pluginW), ("beta", pluginW)] ["alpha", "beta"]
        [("alpha", pluginW)] [] =
      ([("alpha", pluginW), ("beta", pluginW)],
        ["Error registering plugin alpha: Plugin alpha already registered"]) :=
  ⟨rfl, rfl⟩

/-- C6 amended: registerPlugin does raise the duplicate error for an
already-registered name, but init() catches each per-plugin
registration error, logs it and continues with the remaining plugins
— a duplicate is not fatal to initialization. -/
theorem duplicate_registration_amended
    (plugins mods : List (String × Plugin)) (rest errs : List String)
    (pname : String) (inst : Plugin)
    (hd : (plugins.lookup pname).isSome = true) :
    registerPlugin plugins pname inst =
      .error ("Plugin " ++ pname ++ " already registered") ∧
    (mods.lookup pname = some inst →
      initRegisterLoop mods (pname :: rest) plugins errs =
        initRegisterLoop mods rest plugins
          (errs ++ ["Error registering plugin " ++ pname ++ ": "
            ++ ("Plugin " ++ pname ++ " already registered")])) := by
  have hreg : registerPlugin plugins pname inst =
      .error ("Plugin " ++ pname ++ " already registered") := by
    simp only [registerPlugin, hd, if_true]
  refine ⟨hreg, fun hmod => ?_⟩
  simp only [initRegisterLoop, hmod, hreg]

/-- Witness for C6 amended at the concrete duplicate. -/
theorem duplicate_registration_amended_witness :
    initRegisterLoop [("alpha", pluginW)] ["alpha"] [("alpha", pluginW)] [] =
      initRegisterLoop [("alpha", pluginW)] [] [("alpha", pluginW)]
        ["Error registering plugin alpha: Plugin alpha already registered"] :=
  (duplicate_registration_amended [("alpha", pluginW)] [("alpha", pluginW)]
    [] [] "alpha" pluginW rfl).2 rfl

/-- C9 counterexample: terminal completion of the owning response does
not stop the CMB polling interval — after it, a tick still fetches the
external webhook. -/
theorem polling_survives_owner_completion :
    (stepPoll CMBResponse.initialPoll .ownerTerminal).1.pollingActive = true ∧
    (stepPoll (stepPoll CMBResponse.initialPoll .ownerTerminal).1
        (.tick true "pending")).2 = [.fetchExternal] := by
  decide

/-- C9 amended: the polling stops exactly when the external webhook
returns a body with status "completed" (the registered callback is
then invoked), and a cleared interval no longer ticks; terminal
completion of the owning response leaves the interval running. -/
theorem polling_amended (s : CMBPollState) :
    (s.pollingActive = true → s.hasExternalCb = true →
        stepPoll s (.tick true "completed") =
          ({ s with pollingActive := false }, [.fetchExternal, .externalCbFired])) ∧
    (s.pollingActive = false →
        ∀ respOk status, stepPoll s (.tick respOk status) = (s, [])) ∧
    (stepPoll s .ownerTerminal).1.pollingActive = s.pollingActive := by
  refine ⟨?_, ?_, rfl⟩
  · intro hact hcb
    simp [stepPoll, hact, hcb]
  · intro hact respOk status
    simp [stepPoll, hact]

/-- Witness for C9 amended at a concrete active poll. -/
theorem polling_amended_witness :
    stepPoll { pollingActive := true, hasExternalCb := true, ownerCompleted := false }
        (.tick true "completed") =
      ({ pollingActive := false, hasExternalCb := true, ownerCompleted := false },
        [.fetchExternal, .externalCbFired]) :=
  (polling_amended _).1 rfl rfl

theorem runCleanupCbs_spec (tags : List CbTag) (s : SlowState) :
    (runCleanupCbs s tags).1.callId = s.callId ∧
    (runCleanupCbs s tags).1.mixinCompleted = s.mixinCompleted ∧
    (runCleanupCbs s tags).1.timerActive = s.timerActive ∧
    (runCleanupCbs s tags).1.errorCbs = s.errorCbs ∧
    (runCleanupCbs s tags).1.cleanupCbs = s.cleanupCbs ∧
    (runCleanupCbs s tags).1.inRegistry = s.inRegistry ∧
    (s.slowCompleted = true → (runCleanupCbs s tags).1.slowCompleted = true) ∧
    (CbTag.slowGuard ∈ tags → (runCleanupCbs s tags).1.slowCompleted = true) := by
  induction tags generalizing s with
  | nil =>
    refine ⟨rfl, rfl, rfl, rfl, rfl, rfl, fun h => h, fun h => ?_⟩
    cases h
  | cons t rest ih =>
    cases t with
    | user id =>
      have h := ih s
      simp only [runCleanupCbs]
      refine ⟨h.1, h.2.1, h.2.2.1, h.2.2.2.1, h.2.2.2.2.1, h.2.2.2.2.2.1,
        h.2.2.2.2.2.2.1, fun hmem => ?_⟩
      rcases List.mem_cons.mp hmem with heq | hmem'
      · cases heq
      · exact h.2.2.2.2.2.2.2 hmem'
    | slowGuard =>
      simp only [runCleanupCbs]
      by_cases hsc : s.slowCompleted = true
      · simp only [hsc, if_true]
        have h := ih s
        exact ⟨h.1, h.2.1, h.2.2.1, h.2.2.2.1, h.2.2.2.2.1, h.2.2.2.2.2.1,
          fun _ => h.2.2.2.2.2.2.1 hsc, fun _ => h.2.2.2.2.2.2.1 hsc⟩
      · simp only [Bool.not_eq_true] at hsc
        simp only [hsc, Bool.false_eq_true, if_false, slowResourceCleanup]
        have h := ih { s with slowCompleted := true, resourceCbs := [] }
        exact ⟨h.1, h.2.1, h.2.2.1, h.2.2.2.1, h.2.2.2.2.1, h.2.2.2.2.2.1,
          fun _ => h.2.2.2.2.2.2.1 rfl, fun _ => h.2.2.2.2.2.2.1 rfl⟩

theorem completedSlow_parts {s : SlowState} (h : completedSlow s = true) :
    s.slowCompleted = true ∧ s.mixinCompleted = true ∧ s.timerActive = false := by
  simp only [completedSlow, Bool.and_eq_true, Bool.not_eq_true'] at h
  exact ⟨h.1.1, h.1.2, h.2⟩

theorem stepSlow_completed_noop (s : SlowState) (h : completedSlow s = true) :
    (∀ k, stepSlow s (.progress k) = (s, [])) ∧
    (∀ k, stepSlow s (.endCall k) = (s, [])) ∧
    stepSlow s .timerFire = (s, []) ∧
    (∀ e, (stepSlow s e).2 = [] ∧ completedSlow (stepSlow s e).1 = true) := by
  obtain ⟨h1, h2, h3⟩ := completedSlow_parts h
  have hp : ∀ k, stepSlow s (.progress k) = (s, []) := by
    intro k; simp only [stepSlow, h1, if_true]
  have he : ∀ k, stepSlow s (.endCall k) = (s, []) := by
    intro k; simp only [stepSlow, h1, if_true]
  have htf : stepSlow s .timerFire = (s, []) := by
    simp only [stepSlow, h3, Bool.not_false, if_true]
  refine ⟨hp, he, htf, fun e => ?_⟩
  cases e with
  | progress k => rw [hp k]; exact ⟨rfl, h⟩
  | endCall k => rw [he k]; exact ⟨rfl, h⟩
  | timerFire => rw [htf]; exact ⟨rfl, h⟩
  | onError id => exact ⟨rfl, h⟩
  | addCleanupCallback id => exact ⟨rfl, h⟩
  | addResourceCleanupCallback id => exact ⟨rfl, h⟩

theorem slowHandleError_not_completed (s : SlowState) (h : s.slowCompleted = false) :
    slowHandleError s =
      ({ s with slowCompleted := true, mixinCompleted := true, timerActive := false,
                resourceCbs := [], inRegistry := false },
        s.errorCbs.map (fun id => Eff.errorCbFired id "UNKNOWN_ERROR" s.callId)
          ++ s.resourceCbs.map (.resourceCbFired ·)) := by
  simp only [slowHandleError, h, Bool.false_eq_true, if_false, slowResourceCleanup]

theorem slowHandleError_completed (s : SlowState) (h : s.slowCompleted = true) :
    slowHandleError s = (s, []) := by
  simp only [slowHandleError, h, if_true]

theorem handleExpiry_not_completed (s : SlowState) (h : s.mixinCompleted = false) :
    handleExpiry s =
      ({ (runCleanupCbs { s with mixinCompleted := true, timerActive := false }
            s.cleanupCbs).1 with cleanupCbs := [], errorCbs := [] },
        s.errorCbs.map (fun id => Eff.errorCbFired id "EXPIRED" s.callId)
          ++ (runCleanupCbs { s with mixinCompleted := true, timerActive := false }
                s.cleanupCbs).2) := by
  simp only [handleExpiry, h, Bool.false_eq_true, if_false]

theorem stepSlow_inv (s : SlowState) (e : SlowEvent) (h : slowInv s) :
    slowInv (stepSlow s e).1 := by
  obtain ⟨h1, h2, h3, h4⟩ := h
  cases e with
  | progress k =>
    by_cases hsc : s.slowCompleted = true
    · simp only [stepSlow, hsc, if_true]
      exact ⟨h1, h2, h3, h4⟩
    · simp only [Bool.not_eq_true] at hsc
      have hmc : s.mixinCompleted = false := by
        cases hmc : s.mixinCompleted with
        | false => rfl
        | true => rw [h2 hmc] at hsc; cases hsc
      simp only [stepSlow, hsc, Bool.false_eq_true, if_false, hmc]
      cases k with
      | true =>
        simp only [if_true]
        exact ⟨fun hx => absurd hx (by simp [hsc]), fun hx => absurd hx (by simp [hmc]),
          fun hx => absurd hx (by simp [hmc]), fun _ => h4 hmc⟩
      | false =>
        simp only [Bool.false_eq_true, if_false,
          slowHandleError_not_completed { s with timerActive := true } hsc]
        exact ⟨fun _ => rfl, fun _ => rfl, fun _ => rfl, fun hx => by cases hx⟩
  | endCall k =>
    by_cases hsc : s.slowCompleted = true
    · simp only [stepSlow, hsc, if_true]
      exact ⟨h1, h2, h3, h4⟩
    · simp only [Bool.not_eq_true] at hsc
      simp only [stepSlow, hsc, Bool.false_eq_true, if_false]
      cases k with
      | true =>
        simp only [if_true, slowResourceCleanup]
        exact ⟨fun _ => rfl, fun _ => rfl, fun _ => rfl, fun hx => by cases hx⟩
      | false =>
        simp only [Bool.false_eq_true, if_false, slowHandleError_completed
          { s with slowCompleted := true, mixinCompleted := true, timerActive := false } rfl]
        exact ⟨fun _ => rfl, fun _ => rfl, fun _ => rfl, fun hx => by cases hx⟩
  | timerFire =>
    by_cases hta : s.timerActive = true
    · simp only [stepSlow, hta, Bool.not_true, Bool.false_eq_true, if_false]
      by_cases hmc : s.mixinCompleted = true
      · simp only [hmc, if_true]
        exact ⟨fun _ => rfl, fun _ => h2 hmc, fun _ => rfl, fun hx => by cases hx⟩
      · simp only [Bool.not_eq_true] at hmc
        simp only [hmc, Bool.false_eq_true, if_false, handleExpiry_not_completed s hmc]
        have hrc := runCleanupCbs_spec s.cleanupCbs
          { s with mixinCompleted := true, timerActive := false }
        have hslow := hrc.2.2.2.2.2.2.2 (h4 hmc)
        have hmix := hrc.2.1
        have htim := hrc.2.2.1
        exact ⟨fun _ => hmix, fun _ => hslow, fun _ => htim, fun hx => by
          rw [hmix] at hx; cases hx⟩
    · simp only [Bool.not_eq_true] at hta
      simp only [stepSlow, hta, Bool.not_false, if_true]
      exact ⟨h1, h2, h3, h4⟩
  | onError id =>
    exact ⟨h1, h2, h3, h4⟩
  | addCleanupCallback id =>
    exact ⟨h1, h2, h3, fun hx => List.mem_append_left _ (h4 hx)⟩
  | addResourceCleanupCallback id =>
    exact ⟨h1, h2, h3, h4⟩

theorem stepSlow_cb_completes (s : SlowState) (e : SlowEvent) (h : slowInv s)
    (hcb : (stepSlow s e).2.any isCbEff = true) :
    completedSlow (stepSlow s e).1 = true := by
  obtain ⟨h1, h2, h3, h4⟩ := h
  cases e with
  | progress k =>
    by_cases hsc : s.slowCompleted = true
    · simp only [stepSlow, hsc, if_true] at hcb
      cases hcb
    · simp only [Bool.not_eq_true] at hsc
      have hmc : s.mixinCompleted = false := by
        cases hmc : s.mixinCompleted with
        | false => rfl
        | true => rw [h2 hmc] at hsc; cases hsc
      cases k with
      | true =>
        simp only [stepSlow, hsc, Bool.false_eq_true, if_false, hmc, if_true] at hcb
        simp only [List.any_cons, List.any_nil, isCbEff, Bool.or_false] at hcb
        cases hcb
      | false =>
        simp only [stepSlow, hsc, Bool.false_eq_true, if_false, hmc,
          slowHandleError_not_completed { s with timerActive := true } hsc]
        rfl
  | endCall k =>
    by_cases hsc : s.slowCompleted = true
    · simp only [stepSlow, hsc, if_true] at hcb
      cases hcb
    · simp only [Bool.not_eq_true] at hsc
      cases k with
      | true =>
        simp only [stepSlow, hsc, Bool.false_eq_true, if_false, if_true, slowResourceCleanup]
        rfl
      | false =>
        simp only [stepSlow, hsc, Bool.false_eq_true, if_false, slowHandleError_completed
          { s with slowCompleted := true, mixinCompleted := true, timerActive := false } rfl]
          at hcb
        simp only [List.any_cons, List.any_nil, isCbEff, Bool.or_false] at hcb
        cases hcb
  | timerFire =>
    by_cases hta : s.timerActive = true
    · by_cases hmc : s.mixinCompleted = true
      · simp only [stepSlow, hta, Bool.not_true, Bool.false_eq_true, if_false, hmc,
          if_true] at hcb
        cases hcb
      · simp only [Bool.not_eq_true] at hmc
        simp only [stepSlow, hta, Bool.not_true, Bool.false_eq_true, if_false, hmc,
          handleExpiry_not_completed s hmc]
        have hrc := runCleanupCbs_spec s.cleanupCbs
          { s with mixinCompleted := true, timerActive := false }
        have hslow := hrc.2.2.2.2.2.2.2 (h4 hmc)
        have hmix := hrc.2.1
        have htim := hrc.2.2.1
        simp only [completedSlow, hslow, hmix, htim, Bool.not_false, Bool.and_self]
    · simp only [Bool.not_eq_true] at hta
      simp only [stepSlow, hta, Bool.not_false, if_true] at hcb
      cases hcb
  | onError id => cases hcb
  | addCleanupCallback id => cases hcb
  | addResourceCleanupCallback id => cases hcb

theorem runSlow_cb_count (evs : List SlowEvent) (s : SlowState) (h : slowInv s) :
    ((runSlow s evs).2.countP (fun effs => effs.any isCbEff)) ≤
      (if completedSlow s then 0 else 1) := by
  induction evs generalizing s with
  | nil =>
    simp only [runSlow, List.countP_nil]
    exact Nat.zero_le _
  | cons e rest ih =>
    have hinv' := stepSlow_inv s e h
    have ihr := ih (stepSlow s e).1 hinv'
    have hcons : (runSlow s (e :: rest)).2 =
        (stepSlow s e).2 :: (runSlow (stepSlow s e).1 rest).2 := rfl
    rw [hcons, List.countP_cons]
    by_cases hc : completedSlow s = true
    · have hno := (stepSlow_completed_noop s hc).2.2.2 e
      rw [hno.2] at ihr
      have ihr0 : List.countP (fun effs => effs.any isCbEff)
          (runSlow (stepSlow s e).1 rest).2 = 0 := by simpa using ihr
      simp [hno.1, hc, ihr0]
    · simp only [Bool.not_eq_true] at hc
      simp only [hc, Bool.false_eq_true, if_false]
      by_cases hcb : (stepSlow s e).2.any isCbEff = true
      · have hcomp := stepSlow_cb_completes s e h hcb
        rw [hcomp] at ihr
        have ihr0 : List.countP (fun effs => effs.any isCbEff)
            (runSlow (stepSlow s e).1 rest).2 = 0 := by simpa using ihr
        simp [hcb, ihr0]
      · simp only [Bool.not_eq_true] at hcb
        have hle : ((runSlow (stepSlow s e).1 rest).2.countP
            (fun effs => effs.any isCbEff)) ≤ 1 := by
          refine le_trans ihr ?_
          split <;> omega
        simpa [hcb] using hle

/-- C2 counterexample: an ObservableResponse that has completed by
expiry still sends a webhook PUT on a subsequent end — the completion
transition does not silence later calls for observable flavors. -/
theorem observable_end_after_expiry_puts :
    (stepObs (ObservableResponse.initial "cid") .timerFire).1.mixinCompleted = true ∧
    (stepObs (stepObs (ObservableResponse.initial "cid") .timerFire).1 .endCall).2 =
      [Eff.put "/result" "completed"] := by
  constructor
  · rfl
  · rfl

/-- C2 amended: for the slow flavors the completion transition is
one-way and absorbing — once completed, progress, end and timer
events are dropped with no effects, and over any event sequence from
an invariant-respecting state (the freshly constructed state included)
at most one step ever fires listener callbacks; for the observable
flavors, however, end is unguarded: it always sends the PUT and never
marks the response completed. -/
theorem delayed_response_idempotence_amended :
    (∀ s, completedSlow s = true →
        (∀ k, stepSlow s (.progress k) = (s, [])) ∧
        (∀ k, stepSlow s (.endCall k) = (s, [])) ∧
        stepSlow s .timerFire = (s, [])) ∧
    (∀ cid, slowInv (SlowResponse.initial cid)) ∧
    (∀ s evs, slowInv s →
        ((runSlow s evs).2.countP (fun effs => effs.any isCbEff)) ≤ 1) ∧
    (∀ s : ObsState, (stepObs s .endCall).2 = [Eff.put "/result" "completed"] ∧
        (stepObs s .endCall).1.mixinCompleted = s.mixinCompleted) := by
  refine ⟨?_, ?_, ?_, ?_⟩
  · intro s hc
    have h := stepSlow_completed_noop s hc
    exact ⟨h.1, h.2.1, h.2.2.1⟩
  · intro cid
    exact ⟨fun h => Bool.noConfusion h, fun h => Bool.noConfusion h,
      fun h => Bool.noConfusion h, fun _ => List.mem_cons_self _ _⟩
  · intro s evs hinv
    refine le_trans (runSlow_cb_count evs s hinv) ?_
    split <;> omega
  · intro s
    refine ⟨?_, ?_⟩ <;> by_cases hm : s.mixinCompleted = true <;>
      simp [stepObs, hm]

/-- Witness for C2 amended: a completed slow response drops a second
end, and a short concrete lifetime fires callbacks at most once. -/
theorem delayed_response_idempotence_amended_witness :
    stepSlow slowDone (.endCall true) = (slowDone, []) ∧
    ((runSlow (SlowResponse.initial "c")
        [.timerFire, .endCall true]).2.countP (fun effs => effs.any isCbEff)) ≤ 1 := by
  constructor
  · exact (delayed_response_idempotence_amended.1 slowDone rfl).2.1 true
  · exact delayed_response_idempotence_amended.2.2.1 _ _
      (delayed_response_idempotence_amended.2.1 "c")

/-- C7 counterexample: after the expiry timer fires, the EXPIRED error
is delivered, but the response's entry is still present in the Cleanup
Registry — it is not removed as claimed. -/
theorem expiry_keeps_registry_entry :
    (stepSlow slowFixture .timerFire).1.inRegistry = true ∧
    (stepSlow slowFixture .timerFire).1.mixinCompleted = true ∧
    (stepSlow slowFixture .timerFire).2 =
      [Eff.errorCbFired 7 "EXPIRED" "call-1"] := by
  refine ⟨?_, ?_, ?_⟩ <;> rfl

/-- C7 amended: when the inactivity timer fires before completion, the
response transitions to completed with the EXPIRED error carrying the
original callId; every registered error callback fires once, then the
cleanup callbacks run, and both listener lists are cleared — but the
entry in the Cleanup Registry is NOT removed (removal happens only on
the explicit end/error paths or when the registry itself executes the
callbacks). -/
theorem expiry_amended (s : SlowState)
    (hm : s.mixinCompleted = false) (ht : s.timerActive = true) :
    (stepSlow s .timerFire).1.mixinCompleted = true ∧
    (stepSlow s .timerFire).1.timerActive = false ∧
    (stepSlow s .timerFire).2 =
      s.errorCbs.map (fun id => Eff.errorCbFired id "EXPIRED" s.callId)
        ++ (runCleanupCbs { s with mixinCompleted := true, timerActive := false }
              s.cleanupCbs).2 ∧
    (stepSlow s .timerFire).1.errorCbs = [] ∧
    (stepSlow s .timerFire).1.cleanupCbs = [] ∧
    (stepSlow s .timerFire).1.inRegistry = s.inRegistry := by
  simp only [stepSlow, ht, Bool.not_true, Bool.false_eq_true, if_false, hm,
    handleExpiry_not_completed s hm]
  have hrc := runCleanupCbs_spec s.cleanupCbs
    { s with mixinCompleted := true, timerActive := false }
  exact ⟨hrc.2.1, hrc.2.2.1, trivial, trivial, trivial, hrc.2.2.2.2.2.1⟩

/-- Witness for C7 amended at the concrete fixture. -/
theorem expiry_amended_witness :
    (stepSlow slowFixture .timerFire).1.mixinCompleted = true ∧
    (stepSlow slowFixture .timerFire).1.inRegistry = slowFixture.inRegistry := by
  have h := expiry_amended slowFixture rfl rfl
  exact ⟨h.1, h.2.2.2.2.2⟩

theorem edgePath_snoc {g : Graph} {a b c : String}
    (hp : EdgePath g a b) (hc : c ∈ depsOf g b) : EdgePath g a c := by
  induction hp with
  | single h => exact .cons h (.single hc)
  | cons h _ ih => exact .cons h (ih hc)

theorem chain_cons {g : Graph} {a b : String} {rest : List String}
    (h : Chain g (a :: b :: rest)) : a ∈ depsOf g b ∧ Chain g (b :: rest) := h

theorem chain_path {g : Graph} {x : String} :
    ∀ {xs : List String}, Chain g (x :: xs) → ∀ y ∈ xs, EdgePath g y x := by
  intro xs
  induction xs generalizing x with
  | nil => intro _ y hy; cases hy
  | cons z rest ih =>
    intro h y hy
    obtain ⟨hxz, hchain⟩ := chain_cons h
    rcases List.mem_cons.mp hy with heq | hmem
    · subst heq
      exact .single hxz
    · exact edgePath_snoc (ih hchain y hmem) hxz

theorem mem_keys_of_lookup {g : Graph} {n : String} {ds : List String}
    (h : g.lookup n = some ds) : n ∈ keysOf g := by
  induction g with
  | nil => cases h
  | cons p g' ih =>
    rw [List.lookup] at h
    cases hb : (n == p.1) with
    | true =>
      simp only [keysOf, List.map_cons, List.mem_cons]
      exact Or.inl (eq_of_beq hb)
    | false =>
      rw [hb] at h
      exact List.mem_cons_of_mem _ (ih h)

theorem key_of_dep {g : Graph} {n d : String} (h : d ∈ depsOf g n) :
    n ∈ keysOf g := by
  unfold depsOf at h
  cases hl : g.lookup n with
  | none => rw [hl] at h; cases h
  | some ds => exact mem_keys_of_lookup hl

theorem topoOrdered_append {g : Graph} {ord : List String} {n0 : String}
    (hord : topoOrdered g ord) (hdeps : ∀ d ∈ depsOf g n0, d ∈ ord) :
    topoOrdered g (ord ++ [n0]) := by
  intro pre n suf heq d hd
  rcases List.append_eq_append_iff.mp heq.symm with ⟨a', ha1, ha2⟩ | ⟨c', hc1, hc2⟩
  · cases a' with
    | nil =>
      rw [List.append_nil] at ha1
      rw [List.nil_append] at ha2
      injection ha2 with h1 h2
      subst h1
      subst ha1
      exact hdeps d hd
    | cons x a'' =>
      rw [List.cons_append] at ha2
      injection ha2 with h1 h2
      subst h1
      exact hord pre n a'' ha1 d hd
  · cases c' with
    | nil =>
      rw [List.append_nil] at hc1
      rw [List.nil_append] at hc2
      injection hc2 with h1 h2
      subst h1
      subst hc1
      exact hdeps d hd
    | cons y c'' =>
      rw [List.cons_append] at hc2
      injection hc2 with h1 h2
      simp at h2

theorem filter_decomp (p : String → Bool) :
    ∀ (l pre suf : List String) (n : String), l.filter p = pre ++ n :: suf →
      ∃ pre0 suf0, l = pre0 ++ n :: suf0 ∧ pre0.filter p = pre := by
  intro l
  induction l with
  | nil =>
    intro pre suf n h
    rw [List.filter_nil] at h
    cases pre with
    | nil => cases h
    | cons x pre' => cases h
  | cons x l' ih =>
    intro pre suf n h
    by_cases hx : p x = true
    · rw [List.filter_cons_of_pos hx] at h
      cases pre with
      | nil =>
        rw [List.nil_append] at h
        injection h with h1 h2
        subst h1
        exact ⟨[], l', rfl, rfl⟩
      | cons x' pre' =>
        rw [List.cons_append] at h
        injection h with h1 h2
        subst h1
        obtain ⟨pre0, suf0, hl, hf⟩ := ih pre' suf n h2
        refine ⟨x :: pre0, suf0, by rw [hl, List.cons_append], ?_⟩
        rw [List.filter_cons_of_pos hx, hf]
    · rw [List.filter_cons_of_neg (by simpa using hx)] at h
      obtain ⟨pre0, suf0, hl, hf⟩ := ih pre suf n h
      refine ⟨x :: pre0, suf0, by rw [hl, List.cons_append], ?_⟩
      rw [List.filter_cons_of_neg (by simpa using hx), hf]

theorem visit_ok_spec (g : Graph) :
    ∀ fuel : Nat,
      (∀ n st st', visit g fuel n st = .ok st' →
        st'.stack = st.stack ∧
        (∀ x, x ∈ st.visited → x ∈ st'.visited) ∧
        n ∈ st'.visited ∧
        (∀ x, x ∈ st'.visited → x ∈ st.visited ∨ x ∉ st.stack) ∧
        (GoodSt g st → GoodSt g st')) ∧
      (∀ ds st st', visitList g fuel ds st = .ok st' →
        st'.stack = st.stack ∧
        (∀ x, x ∈ st.visited → x ∈ st'.visited) ∧
        (∀ d, d ∈ ds → d ∈ st'.visited) ∧
        (∀ x, x ∈ st'.visited → x ∈ st.visited ∨ x ∉ st.stack) ∧
        (GoodSt g st → GoodSt g st')) := by
  intro fuel
  induction fuel with
  | zero =>
    constructor
    · intro n st st' h
      simp only [visit] at h
      cases h
    · intro ds st st' h
      cases ds with
      | nil =>
        simp only [visitList, Except.ok.injEq] at h
        subst h
        exact ⟨rfl, fun x hx => hx, fun d hd => absurd hd (List.not_mem_nil d),
          fun x hx => Or.inl hx, fun hg => hg⟩
      | cons d ds' =>
        simp only [visitList, visit] at h
        cases h
  | succ f ih =>
    have hV : ∀ n st st', visit g (f + 1) n st = .ok st' →
        st'.stack = st.stack ∧
        (∀ x, x ∈ st.visited → x ∈ st'.visited) ∧
        n ∈ st'.visited ∧
        (∀ x, x ∈ st'.visited → x ∈ st.visited ∨ x ∉ st.stack) ∧
        (GoodSt g st → GoodSt g st') := by
      intro n st st' h
      simp only [visit] at h
      by_cases hstk : n ∈ st.stack
      · rw [if_pos hstk] at h
        cases h
      · rw [if_neg hstk] at h
        by_cases hvis : n ∈ st.visited
        · rw [if_pos hvis] at h
          cases h
          exact ⟨rfl, fun x hx => hx, hvis, fun x hx => Or.inl hx, fun hg => hg⟩
        · rw [if_neg hvis] at h
          cases hvl : visitList g f (depsOf g n) { st with stack := n :: st.stack } with
          | error e => rw [hvl] at h; cases h
          | ok st2 =>
            rw [hvl] at h
            cases h
            obtain ⟨hstack, hmono, hall, hnew, hgood⟩ := ih.2 _ _ _ hvl
            refine ⟨?_, ?_, ?_, ?_, ?_⟩
            · show st2.stack.erase n = st.stack
              rw [hstack]
              exact List.erase_cons_head n st.stack
            · intro x hx
              exact List.mem_cons_of_mem _ (hmono x hx)
            · exact List.mem_cons_self _ _
            · intro x hx
              rcases List.mem_cons.mp hx with heq | hmem
              · subst heq
                exact Or.inr hstk
              · rcases hnew x hmem with hin | hnotin
                · exact Or.inl hin
                · exact Or.inr (fun hc => hnotin (List.mem_cons_of_mem _ hc))
            · intro hg
              have hg2 : GoodSt g st2 := hgood hg
              obtain ⟨hnd2, hsync2, htopo2⟩ := hg2
              have hnot2 : n ∉ st2.order := by
                intro hc
                have hvc : n ∈ st2.visited := (hsync2 n).mpr hc
                rcases hnew n hvc with hin | hnotin
                · exact hvis hin
                · exact hnotin (List.mem_cons_self _ _)
              refine ⟨?_, ?_, ?_⟩
              · show (st2.order ++ [n]).Nodup
                rw [List.nodup_append]
                exact ⟨hnd2, List.nodup_singleton n,
                  fun a ha hb => hnot2 (by rwa [List.mem_singleton.mp hb] at ha)⟩
              · intro x
                show x ∈ n :: st2.visited ↔ x ∈ st2.order ++ [n]
                rw [List.mem_cons, List.mem_append, List.mem_singleton, hsync2 x]
                tauto
              · refine topoOrdered_append htopo2 (fun d hd => ?_)
                exact (hsync2 d).mp (hall d hd)
    have hQ : ∀ ds st st', visitList g (f + 1) ds st = .ok st' →
        st'.stack = st.stack ∧
        (∀ x, x ∈ st.visited → x ∈ st'.visited) ∧
        (∀ d, d ∈ ds → d ∈ st'.visited) ∧
        (∀ x, x ∈ st'.visited → x ∈ st.visited ∨ x ∉ st.stack) ∧
        (GoodSt g st → GoodSt g st') := by
      intro ds
      induction ds with
      | nil =>
        intro st st' h
        simp only [visitList, Except.ok.injEq] at h
        subst h
        exact ⟨rfl, fun x hx => hx, fun d hd => absurd hd (List.not_mem_nil d),
          fun x hx => Or.inl hx, fun hg => hg⟩
      | cons d ds' ihds =>
        intro st st' h
        simp only [visitList] at h
        cases hv1 : visit g (f + 1) d st with
        | error e => rw [hv1] at h; cases h
        | ok stm =>
          rw [hv1] at h
          obtain ⟨ha1, ha2, ha3, ha4, ha5⟩ := hV d st stm hv1
          obtain ⟨hb1, hb2, hb3, hb4, hb5⟩ := ihds stm st' h
          refine ⟨by rw [hb1, ha1], fun x hx => hb2 x (ha2 x hx), ?_, ?_,
            fun hg => hb5 (ha5 hg)⟩
          · intro e he
            rcases List.mem_cons.mp he with heq | hmem
            · subst heq
              exact hb2 e ha3
            · exact hb3 e hmem
          · intro x hx
            rcases hb4 x hx with hin | hnotin
            · rcases ha4 x hin with hin2 | hnotin2
              · exact Or.inl hin2
              · exact Or.inr hnotin2
            · rw [ha1] at hnotin
              exact Or.inr hnotin
    exact ⟨hV, hQ⟩

theorem visit_error_spec (g : Graph) :
    ∀ fuel : Nat,
      (∀ n st e, visit g fuel n st = .error e →
        Chain g (n :: st.stack) →
        st.stack.Nodup →
        (∀ x ∈ st.stack, x ∈ keysOf g) →
        (keysOf g).length < fuel + st.stack.length →
        (∃ m, e = cycMsg m) ∧ hasCycle g) ∧
      (∀ ds st e, visitList g fuel ds st = .error e →
        (∀ d ∈ ds, Chain g (d :: st.stack)) →
        st.stack.Nodup →
        (∀ x ∈ st.stack, x ∈ keysOf g) →
        (keysOf g).length < fuel + st.stack.length →
        (∃ m, e = cycMsg m) ∧ hasCycle g) := by
  intro fuel
  induction fuel with
  | zero =>
    have hcontra : ∀ st : DfsSt, st.stack.Nodup →
        (∀ x ∈ st.stack, x ∈ keysOf g) →
        (keysOf g).length < 0 + st.stack.length → False := by
      intro st hnd hsub hbound
      have hle : st.stack.length ≤ (keysOf g).length :=
        (hnd.subperm (fun x hx => hsub x hx)).length_le
      omega
    constructor
    · intro n st e _ _ hnd hsub hbound
      exact (hcontra st hnd hsub hbound).elim
    · intro ds st e _ _ hnd hsub hbound
      exact (hcontra st hnd hsub hbound).elim
  | succ f ih =>
    have hV : ∀ n st e, visit g (f + 1) n st = .error e →
        Chain g (n :: st.stack) →
        st.stack.Nodup →
        (∀ x ∈ st.stack, x ∈ keysOf g) →
        (keysOf g).length < (f + 1) + st.stack.length →
        (∃ m, e = cycMsg m) ∧ hasCycle g := by
      intro n st e h hch hnd hsub hbound
      simp only [visit] at h
      by_cases hstk : n ∈ st.stack
      · rw [if_pos hstk] at h
        injection h with he
        exact ⟨⟨n, he.symm⟩, ⟨n, chain_path hch n hstk⟩⟩
      · rw [if_neg hstk] at h
        by_cases hvis : n ∈ st.visited
        · rw [if_pos hvis] at h
          cases h
        · rw [if_neg hvis] at h
          cases hvl : visitList g f (depsOf g n) { st with stack := n :: st.stack } with
          | ok st2 => rw [hvl] at h; cases h
          | error e2 =>
            rw [hvl] at h
            injection h with he
            subst he
            rcases hdep : depsOf g n with _ | ⟨d0, rest⟩
            · rw [hdep] at hvl
              simp only [visitList] at hvl
              cases hvl
            · have hkey : n ∈ keysOf g :=
                key_of_dep (d := d0) (by rw [hdep]; exact List.mem_cons_self _ _)
              rw [hdep] at hvl
              refine ih.2 (d0 :: rest) { st with stack := n :: st.stack } e2 hvl
                ?_ ?_ ?_ ?_
              · intro d hdmem
                refine ⟨?_, hch⟩
                show d ∈ depsOf g n
                rw [hdep]
                exact hdmem
              · exact List.nodup_cons.mpr ⟨hstk, hnd⟩
              · intro x hx
                rcases List.mem_cons.mp hx with heq | hmem
                · subst heq; exact hkey
                · exact hsub x hmem
              · show (keysOf g).length < f + (n :: st.stack).length
                rw [List.length_cons]
                omega
    have hQ : ∀ ds st e, visitList g (f + 1) ds st = .error e →
        (∀ d ∈ ds, Chain g (d :: st.stack)) →
        st.stack.Nodup →
        (∀ x ∈ st.stack, x ∈ keysOf g) →
        (keysOf g).length < (f + 1) + st.stack.length →
        (∃ m, e = cycMsg m) ∧ hasCycle g := by
      intro ds
      induction ds with
      | nil =>
        intro st e h _ _ _ _
        simp only [visitList] at h
        cases h
      | cons d ds' ihds =>
        intro st e h hch hnd hsub hbound
        simp only [visitList] at h
        cases hv1 : visit g (f + 1) d st with
        | error e1 =>
          rw [hv1] at h
          injection h with he
          subst he
          exact hV d st e1 hv1 (hch d (List.mem_cons_self _ _)) hnd hsub hbound
        | ok stm =>
          rw [hv1] at h
          obtain ⟨ha1, _, _, _, _⟩ := (visit_ok_spec g (f + 1)).1 d st stm hv1
          refine ihds stm e h ?_ ?_ ?_ ?_
          · rw [ha1]
            exact fun d' hd' => hch d' (List.mem_cons_of_mem _ hd')
          · rw [ha1]; exact hnd
          · rw [ha1]; exact hsub
          · rw [ha1]; exact hbound
    exact ⟨hV, hQ⟩

theorem sortLoop_spec (g : Graph) (fuel : Nat) :
    ∀ ns st st', sortLoop g fuel ns st = .ok st' →
      st'.stack = st.stack ∧
      (∀ x, x ∈ st.visited → x ∈ st'.visited) ∧
      (∀ n, n ∈ ns → n ∈ st'.visited) ∧
      (GoodSt g st → GoodSt g st') := by
  intro ns
  induction ns with
  | nil =>
    intro st st' h
    simp only [sortLoop, Except.ok.injEq] at h
    subst h
    exact ⟨rfl, fun _ hx => hx, fun n hn => absurd hn (List.not_mem_nil n), id⟩
  | cons n ns' ih =>
    intro st st' h
    simp only [sortLoop] at h
    by_cases hvis : n ∈ st.visited
    · rw [if_pos hvis] at h
      obtain ⟨h1, h2, h3, h4⟩ := ih st st' h
      refine ⟨h1, h2, fun m hm => ?_, h4⟩
      rcases List.mem_cons.mp hm with heq | hmem
      · subst heq; exact h2 m hvis
      · exact h3 m hmem
    · rw [if_neg hvis] at h
      cases hv : visit g fuel n st with
      | error e => rw [hv] at h; cases h
      | ok stm =>
        rw [hv] at h
        obtain ⟨a1, a2, a3, a4, a5⟩ := (visit_ok_spec g fuel).1 n st stm hv
        obtain ⟨b1, b2, b3, b4⟩ := ih stm st' h
        refine ⟨by rw [b1, a1], fun x hx => b2 x (a2 x hx), fun m hm => ?_,
          fun hg => b4 (a5 hg)⟩
        rcases List.mem_cons.mp hm with heq | hmem
        · subst heq; exact b2 m a3
        · exact b3 m hmem

theorem sortLoop_error (g : Graph) (fuel : Nat) :
    ∀ ns st e, sortLoop g fuel ns st = .error e →
      st.stack = [] →
      (keysOf g).length < fuel →
      (∃ m, e = cycMsg m) ∧ hasCycle g := by
  intro ns
  induction ns with
  | nil =>
    intro st e h _ _
    simp only [sortLoop] at h
    cases h
  | cons n ns' ih =>
    intro st e h hstk hbound
    simp only [sortLoop] at h
    by_cases hvis : n ∈ st.visited
    · rw [if_pos hvis] at h
      exact ih st e h hstk hbound
    · rw [if_neg hvis] at h
      cases hv : visit g fuel n st with
      | error e1 =>
        rw [hv] at h
        injection h with he
        subst he
        refine (visit_error_spec g fuel).1 n st e1 hv ?_ ?_ ?_ ?_
        · rw [hstk]
          trivial
        · rw [hstk]; exact List.nodup_nil
        · rw [hstk]; intro x hx; cases hx
        · rw [hstk]
          simpa using hbound
      | ok stm =>
        rw [hv] at h
        obtain ⟨a1, _, _, _, _⟩ := (visit_ok_spec g fuel).1 n st stm hv
        exact ih stm e h (by rw [a1, hstk]) hbound

theorem topologicalSort_ok_spec {g : Graph} {order : List String}
    (h : topologicalSort g = .ok order) :
    (∀ k ∈ keysOf g, k ∈ order) ∧ order.Nodup ∧ topoOrdered g order := by
  unfold topologicalSort at h
  cases hs : sortLoop g (keysOf g).length.succ (keysOf g) ⟨[], [], []⟩ with
  | error e => rw [hs] at h; cases h
  | ok st =>
    rw [hs] at h
    injection h with ho
    subst ho
    obtain ⟨_, _, h3, h4⟩ := sortLoop_spec g _ (keysOf g) _ st hs
    have hg : GoodSt g st := by
      refine h4 ⟨List.nodup_nil, fun x => Iff.rfl, ?_⟩
      intro pre n suf heq d hd
      exact absurd heq.symm (by simp)
    exact ⟨fun k hk => (hg.2.1 k).mp (h3 k hk), hg.1, hg.2.2⟩

theorem topoOrdered_indexOf_lt {g : Graph} {order : List String}
    (hnd : order.Nodup) (htopo : topoOrdered g order)
    {n d : String} (hn : n ∈ order) (hd : d ∈ depsOf g n) :
    d ∈ order ∧ order.indexOf d < order.indexOf n := by
  obtain ⟨pre, suf, heq⟩ := List.append_of_mem hn
  have hdpre : d ∈ pre := htopo pre n suf heq d hd
  have hnpre : n ∉ pre := by
    intro hc
    rw [heq, List.nodup_append] at hnd
    exact hnd.2.2 hc (List.mem_cons_self _ _)
  constructor
  · rw [heq]
    exact List.mem_append_left _ hdpre
  · rw [heq, List.indexOf_append_of_mem hdpre, List.indexOf_append_of_not_mem hnpre,
      List.indexOf_cons_self]
    have := List.indexOf_lt_length.mpr hdpre
    omega

theorem edgePath_indexOf_lt {g : Graph} {order : List String}
    (hnd : order.Nodup) (htopo : topoOrdered g order) :
    ∀ {a b : String}, EdgePath g a b → a ∈ order →
      b ∈ order ∧ order.indexOf b < order.indexOf a := by
  intro a b hp
  induction hp with
  | single hdep =>
    intro ha
    exact topoOrdered_indexOf_lt hnd htopo ha hdep
  | cons hdep _ ih =>
    intro ha
    have hb := topoOrdered_indexOf_lt hnd htopo ha hdep
    have hc := ih hb.1
    exact ⟨hc.1, lt_trans hc.2 hb.2⟩

theorem hasCycle_not_ok {g : Graph} {order : List String}
    (hcyc : hasCycle g) (h : topologicalSort g = .ok order) : False := by
  obtain ⟨hcov, hnd, htopo⟩ := topologicalSort_ok_spec h
  obtain ⟨n, hp⟩ := hcyc
  have hn : n ∈ order := by
    cases hp with
    | single hd => exact hcov n (key_of_dep hd)
    | cons hd _ => exact hcov n (key_of_dep hd)
  have hlt := (edgePath_indexOf_lt hnd htopo hp hn).2
  omega

/-- C3: for an acyclic declared dependency graph, init() registers the
plugins in an order where every plugin appears after all of its
resolvable dependencies; if the edges contain a cycle (a self-loop or
a strongly-connected component of size at least two), the sort — and
hence init() — fails with an error whose message contains "Circular
dependency"; and such an error is raised only when the edges really
contain a cycle. -/
theorem topologicalSort_correct (g : Graph) :
    (∀ order, topologicalSort g = .ok order →
        (∀ k ∈ keysOf g, k ∈ order) ∧
        (∀ pre n suf, initRegistrationOrder g order = pre ++ n :: suf →
            ∀ d ∈ depsOf g n, isKey g d = true → d ∈ pre)) ∧
    (hasCycle g → ∃ n, topologicalSort g = .error (cycMsg n)) ∧
    (∀ e, topologicalSort g = .error e → (∃ n, e = cycMsg n) ∧ hasCycle g) ∧
    (∀ n, ∃ rest, cycMsg n = "Circular dependency" ++ rest) := by
  have herrspec : ∀ e, topologicalSort g = .error e →
      (∃ n, e = cycMsg n) ∧ hasCycle g := by
    intro e h
    unfold topologicalSort at h
    cases hs : sortLoop g (keysOf g).length.succ (keysOf g) ⟨[], [], []⟩ with
    | ok st => rw [hs] at h; cases h
    | error e1 =>
      rw [hs] at h
      injection h with he
      subst he
      exact sortLoop_error g _ (keysOf g) _ e1 hs rfl (Nat.lt_succ_self _)
  refine ⟨?_, ?_, herrspec, fun n => ⟨" detected involving plugin " ++ n, by
    rw [cycMsg, ← String.append_assoc]
    rfl⟩⟩
  · intro order hok
    obtain ⟨hcov, hnd, htopo⟩ := topologicalSort_ok_spec hok
    refine ⟨hcov, ?_⟩
    intro pre n suf heq d hd hkey
    obtain ⟨pre0, suf0, hl, hf⟩ := filter_decomp (isKey g) order pre suf n heq
    have hdpre0 : d ∈ pre0 := htopo pre0 n suf0 hl d hd
    rw [← hf]
    exact List.mem_filter.mpr ⟨hdpre0, hkey⟩
  · intro hcyc
    cases ht : topologicalSort g with
    | ok order => exact (hasCycle_not_ok hcyc ht).elim
    | error e =>
      obtain ⟨⟨m, hm⟩, _⟩ := herrspec e ht
      exact ⟨m, by rw [hm]⟩

/-- Witness for C3: a concrete two-node cycle is reported as a
Circular dependency error, and a concrete acyclic graph is ordered
with every key present. -/
theorem topologicalSort_correct_witness :
    hasCycle gCyc ∧
    (∃ n, topologicalSort gCyc = .error (cycMsg n)) ∧
    topologicalSort gAcyc = .ok ["a", "b"] ∧
    ("a" ∈ keysOf gAcyc → "a" ∈ ["a", "b"]) := by
  have hcyc : hasCycle gCyc := by
    refine ⟨"x", .cons (a := "x") (b := "y") ?_ (.single ?_)⟩
    · show "y" ∈ depsOf gCyc "x"
      decide
    · show "x" ∈ depsOf gCyc "y"
      decide
  have hok : topologicalSort gAcyc = .ok ["a", "b"] := by
    simp [topologicalSort, sortLoop, visit, visitList, gAcyc, keysOf, depsOf, List.lookup]
  refine ⟨hcyc, (topologicalSort_correct gCyc).2.1 hcyc, hok, fun hk => ?_⟩
  exact ((topologicalSort_correct gAcyc).1 ["a", "b"] hok).1 "a" hk

end ServerlessAPI
